import Mathlib

/-!
Verification of the Nourish.AI core against its specification.

This file gives a shallow embedding of the two specified cores:

1. the longest-match term-highlighting algorithm (`TextWithVillains` in the
   app root and `LiveTextWithVillains` in `src/components/InsightCard.tsx`,
   which share the identical matching logic), and
2. the continuous scan scheduling loop with backoff (the `LiveScanner`
   component's interval effect in `src/components/InsightCard.tsx`),
3. the response handling of the analysis invoker (`analyzeImage` /
   `analyzeText` in the gemini service module).

Strings are embedded as `List Char`; JavaScript case-insensitive comparison
is modelled with `Char.toLower` (both the regex `i` flag and the explicit
`toLowerCase()` calls; this is exact on ASCII, which is what the term names
use).  React state updates are modelled as synchronous state transitions; the
interval callback up to the `await`, the resolution continuation of the
awaited call, and the click handlers each run atomically on the JS event
loop, so each is one step of the state machine.
-/

set_option autoImplicit false

/-! ### Data model: villains and spans -/

/-- A villain record: `{name: string, explanation: string}` (src/unnamed/part_002,
`Villain` interface). -/
structure Villain where
  name : List Char
  explanation : List Char
deriving DecidableEq, Repr

/-- One rendered span of the term matcher: either plain text or a highlighted
(villain-marked) stretch carrying the villain resolved for it. -/
inductive Span where
  | plain (t : List Char)
  | marked (t : List Char) (v : Villain)
deriving DecidableEq, Repr

/-- The text carried by a span. -/
def spanText : Span → List Char
  | Span.plain t => t
  | Span.marked t _ => t

/-- Whether a span is a villain-marked (Match) span. -/
def spanIsHit : Span → Bool
  | Span.plain _ => false
  | Span.marked _ _ => true

/-! ### Case-insensitive string primitives -/

/-- `ciPrefixOf pat s`: `pat` is a case-insensitive prefix of `s`
(character-wise `toLower` comparison). -/
def ciPrefixOf : List Char → List Char → Bool
  | [], _ => true
  | _ :: _, [] => false
  | a :: as, b :: bs => (Char.toLower a == Char.toLower b) && ciPrefixOf as bs

/-- Case-insensitive string equality, as in
`v.name.toLowerCase() === part.toLowerCase()`. -/
def lowerEq (a b : List Char) : Bool :=
  a.map Char.toLower == b.map Char.toLower

/-! ### The stable length-descending sort

`[...villains].sort((a, b) => b.name.length - a.name.length)` — JavaScript's
`Array.prototype.sort` is required to be stable, so this is the stable sort
that puts longer names first and keeps the original order among names of
equal length. -/

/-- Insert a villain into a (descending-by-length) list: it is placed before
the first element whose name is strictly shorter, i.e. after every element
with greater length and before every element with smaller or equal length
(the equal-length ones came later in the original list, preserving
stability). -/
def insertByLenDesc (v : Villain) : List Villain → List Villain
  | [] => [v]
  | w :: ws =>
    if v.name.length < w.name.length then w :: insertByLenDesc v ws
    else v :: w :: ws

/-- The stable sort by name length descending used by the matcher. -/
def sortByLenDesc : List Villain → List Villain
  | [] => []
  | v :: vs => insertByLenDesc v (sortByLenDesc vs)

/-- Length-descending order on villains. -/
def lenDescRel (a b : Villain) : Prop := b.name.length ≤ a.name.length

/-! ### The single left-to-right scan

The source builds `new RegExp('(' + names.join('|') + ')', 'gi')` from the
sorted names (with literal escaping, so every name is matched literally) and
runs `text.split(pattern)`.  The ECMAScript semantics of `String.split` with
a separator regex carrying one capturing group are: scan left to right; at
each position the alternation tries the names in list order (hence, after
the sort, longest first) and the earliest position with a match wins; each
match contributes the in-between substring and the captured match to the
output; an empty-string match at the start of the current chunk is skipped
(the scan advances one character); the trailing chunk is always emitted; an
empty input string with a separator that matches the empty string yields an
empty array. -/

/-- First name in `names` (in list order, like regex alternation) that
case-insensitively matches at the head of `s`; returns its length. -/
def firstMatchLen (names : List (List Char)) (s : List Char) : Option Nat :=
  match names with
  | [] => none
  | n :: ns => if ciPrefixOf n s then some n.length else firstMatchLen ns s

/-- The split scan.  `cur` is the reversed current in-between chunk, `rest`
the unscanned text; `fuel` bounds the recursion (`jsSplitParts` supplies
`text.length`, which always suffices, since each step consumes at least one
character of `rest`). -/
def splitScan (names : List (List Char)) : Nat → List Char → List Char → List (List Char)
  | _, cur, [] => [cur.reverse]
  | 0, cur, rest => [cur.reverse ++ rest]
  | fuel + 1, cur, c :: rest =>
    match firstMatchLen names (c :: rest) with
    | none => splitScan names fuel (c :: cur) rest
    | some 0 =>
      if cur.isEmpty then splitScan names fuel [c] rest
      else cur.reverse :: ([] : List Char) :: splitScan names fuel [c] rest
    | some (L + 1) =>
      cur.reverse :: (c :: rest).take (L + 1) ::
        splitScan names fuel [] ((c :: rest).drop (L + 1))

/-- `text.split(pattern)` for a one-capture alternation of the literal
`names`, flags `gi`. -/
def jsSplitParts (names : List (List Char)) (text : List Char) : List (List Char) :=
  if text.isEmpty && (firstMatchLen names text).isSome then []
  else splitScan names text.length [] text

/-! ### Part classification and the matcher -/

/-- `parts.map(...)`: a part becomes a highlighted span when some sorted
villain's name equals it case-insensitively
(`sortedVillains.find(v => v.name.toLowerCase() === part.toLowerCase())`),
otherwise it is rendered as plain text. -/
def classifyPart (sorted : List Villain) (part : List Char) : Span :=
  match sorted.find? (fun v => lowerEq v.name part) with
  | some v => Span.marked part v
  | none => Span.plain part

/-- The term matcher (`TextWithVillains` / `LiveTextWithVillains`): empty
villain list renders the whole text as one plain span; otherwise sort, split
on the alternation, and classify every part. -/
def textWithVillains (text : List Char) (villains : List Villain) : List Span :=
  if villains.isEmpty then [Span.plain text]
  else
    let sorted := sortByLenDesc villains
    (jsSplitParts (sorted.map (fun v => v.name)) text).map (classifyPart sorted)

/-! ### Occurrence bookkeeping (used to state the claims) -/

/-- Whether character index `i` of the concatenated span texts falls inside a
villain-marked span. -/
def inMatchSpan : List Span → Nat → Bool
  | [], _ => false
  | s :: rest, i =>
    if i < (spanText s).length then spanIsHit s
    else inMatchSpan rest (i - (spanText s).length)

/-- Boolean rendering of the claim "every occurrence in the text of any
term's name, compared case-insensitively, lies inside a Match span". -/
def allOccurrencesCaptured (text : List Char) (vs : List Villain) : Bool :=
  (List.range (text.length + 1)).all fun i =>
    vs.all fun v =>
      !(ciPrefixOf v.name (text.drop i)) ||
        (List.range v.name.length).all fun k =>
          inMatchSpan (textWithVillains text vs) (i + k)

/-- `pat` occurs in `text`, case-insensitively. -/
def containsCI (text pat : List Char) : Bool :=
  (List.range (text.length + 1)).any fun i => ciPrefixOf pat (text.drop i)

/-- Alternating well-formedness of a parts list produced by the scan. -/
inductive PartsOK (names : List (List Char)) : Bool → List (List Char) → Prop
  | nil (b : Bool) : PartsOK names b []
  | plainPart (p : List Char) (ps : List (List Char))
      (hp : ∀ n ∈ names, n ≠ [] → ∀ j, ciPrefixOf n (p.drop j) = false)
      (h : PartsOK names true ps) : PartsOK names false (p :: ps)
  | hitPart (p : List Char) (ps : List (List Char))
      (hp : ∃ n ∈ names, lowerEq n p = true)
      (h : PartsOK names false ps) : PartsOK names true (p :: ps)

/-! ### The scan scheduler (`LiveScanner` interval effect)

State fields mirror the component's state and refs: `isAnalyzing`,
`isCoolingDown`, `result`, the error banner, `lastAnalysisTimeRef`, and the
active persona context (`activePersonaId`, `activeSubOptionId`).  The
analysis payload type is abstract (`ρ`): the scheduler never inspects it.
`inFlight` is ghost bookkeeping recording, for each invocation that has been
started and not yet resolved, the persona context it was issued under; the
source keeps no such record — it is carried here only so that claims about
in-flight invocations can be stated.  Timestamps are integers (`Date.now()`
milliseconds).

Suspend conditions (`pendingPersonaId`, `activeVillain`, `isPlayingAudio`,
`!isStreaming`, `!apiKey`) stop the interval from existing at all; they are
modelled by the absence of tick events. -/

/-- The active persona context: `none` when no persona/sub-option pair is
selected, otherwise `(activePersonaId, activeSubOptionId)`. -/
abbrev PersonaCtx := Option (String × String)

/-- Scheduler state of the `LiveScanner` component. -/
structure SchedState (ρ : Type) where
  isAnalyzing : Bool
  isCoolingDown : Bool
  lastAnalysisTime : Int
  result : Option ρ
  errorShown : Bool
  context : PersonaCtx
  inFlight : List PersonaCtx
deriving DecidableEq, Repr

/-- Outcome of one awaited `analyzeImage` call, as classified by the
`catch` clause: success with a payload, the `QUOTA_EXCEEDED` error thrown by
`handleGeminiError`, or any other rejection. -/
inductive Outcome (ρ : Type) where
  | success (r : ρ)
  | quotaExceeded
  | otherError
deriving DecidableEq, Repr

/-- Events driving the scheduler: an interval tick (with the current time
and whether the video frame is ready, i.e. `readyState === HAVE_ENOUGH_DATA`
and the canvas context exists), the resolution of the in-flight call, and a
persona-context change (`confirmSubOption`, or deselection in
`handlePersonaClick`). -/
inductive Ev (ρ : Type) where
  | tick (now : Int) (ready : Bool)
  | resolve (now : Int) (out : Outcome ρ)
  | changeCtx (c : PersonaCtx)
deriving DecidableEq, Repr

/-- The part of the tick after the cooldown gate:
`if (isAnalyzing || (now - lastAnalysisTimeRef.current < 3000)) return;`
then the readiness checks, then `setIsAnalyzing(true)` and the invocation
start.  (A missing 2d canvas context returns inside the `try`, whose
`finally` immediately resets `isAnalyzing`; the net state effect is the same
as the readiness skip, so both are folded into `ready`.) -/
def tickMain {ρ : Type} (s : SchedState ρ) (now : Int) (ready : Bool) : SchedState ρ :=
  if s.isAnalyzing || decide (now - s.lastAnalysisTime < 3000) then s
  else if !ready then s
  else { s with isAnalyzing := true, inFlight := s.inFlight ++ [s.context] }

/-- One interval tick.  The cooldown gate first:
`if (isCoolingDown) { if (now > lastAnalysisTimeRef.current + 3000)
{ setIsCoolingDown(false); setError(null); } else return; }`
and only then the spacing/readiness logic. -/
def tickStep {ρ : Type} (s : SchedState ρ) (now : Int) (ready : Bool) : SchedState ρ :=
  if s.isCoolingDown then
    if now > s.lastAnalysisTime + 3000 then
      tickMain { s with isCoolingDown := false, errorShown := false } now ready
    else s
  else tickMain s now ready

/-- Resolution of the awaited call: on success `setResult(data)` and
`lastAnalysisTimeRef.current = Date.now()`; on `QUOTA_EXCEEDED`
`setError(...)`, `setIsCoolingDown(true)` and
`lastAnalysisTimeRef.current = Date.now() + 10000`; on any other rejection
nothing but the `finally` clause, which always does
`setIsAnalyzing(false)`.  A resolve with nothing in flight cannot occur and
is a no-op. -/
def resolveStep {ρ : Type} (s : SchedState ρ) (now : Int) (out : Outcome ρ) : SchedState ρ :=
  match s.inFlight with
  | [] => s
  | _ :: rest =>
    match out with
    | Outcome.success r =>
      { s with result := some r, lastAnalysisTime := now,
               isAnalyzing := false, inFlight := rest }
    | Outcome.quotaExceeded =>
      { s with errorShown := true, isCoolingDown := true,
               lastAnalysisTime := now + 10000,
               isAnalyzing := false, inFlight := rest }
    | Outcome.otherError =>
      { s with isAnalyzing := false, inFlight := rest }

/-- A persona-context change: `confirmSubOption` sets the active ids and
`setResult(null)`; deselection in `handlePersonaClick` sets both ids to
`null` and also `setResult(null)`.  Nothing else is touched — in particular
no spacing/cooldown field and no flag forcing the next tick. -/
def changeCtxStep {ρ : Type} (s : SchedState ρ) (c : PersonaCtx) : SchedState ρ :=
  { s with context := c, result := none }

/-- One scheduler step. -/
def schedStep {ρ : Type} (s : SchedState ρ) : Ev ρ → SchedState ρ
  | Ev.tick now ready => tickStep s now ready
  | Ev.resolve now out => resolveStep s now out
  | Ev.changeCtx c => changeCtxStep s c

/-- Initial component state: `isAnalyzing = false`, `isCoolingDown = false`,
`lastAnalysisTimeRef = 0`, no result, no error, no persona selected. -/
def schedInit (ρ : Type) : SchedState ρ :=
  { isAnalyzing := false, isCoolingDown := false, lastAnalysisTime := 0,
    result := none, errorShown := false, context := none, inFlight := [] }

/-- Run the scheduler from the initial state over a list of events. -/
def runEvents {ρ : Type} (evs : List (Ev ρ)) : SchedState ρ :=
  evs.foldl schedStep (schedInit ρ)

/-- At most one invocation is ever in flight, and none while the component
is not analyzing. -/
def flightInv {ρ : Type} (s : SchedState ρ) : Prop :=
  s.inFlight.length ≤ 1 ∧ (s.isAnalyzing = false → s.inFlight = [])

/-! ### Invoker response handling (`analyzeImage` / `analyzeText`)

Both functions end with
`const text = response.text; if (!text) throw new Error("No response text
from Gemini"); return JSON.parse(text) as AnalysisResult;`.
`JSON.parse` is abstracted as an explicit `parse` argument returning the
parsed JSON value, `none` standing for the `SyntaxError` it throws on
malformed input.  The `as AnalysisResult` is a compile-time-only cast: the
parsed value is returned with no field validation.  The required-field
contract lives solely in the `responseSchema` sent with the request
(`analysisSchema.required` in the service module). -/

/-- A JSON value. -/
inductive JVal where
  | jnull
  | jbool (b : Bool)
  | jnum (n : Int)
  | jstr (s : String)
  | jarr (xs : List JVal)
  | jobj (fields : List (String × JVal))

/-- The `required` list of `analysisSchema` in the gemini service module. -/
def requiredFields : List String :=
  ["summary", "audioScript", "shareContent", "healthScore", "insights",
   "radarData", "dietaryClassification", "tradeoffs", "uncertainty",
   "villains"]

/-- Whether a JSON object carries a field named `k`. -/
def hasKey (fields : List (String × JVal)) (k : String) : Bool :=
  fields.any (fun p => p.1 == k)

/-- The required-field contract of `AnalysisResult`: the payload is an
object carrying every field of `analysisSchema.required`. -/
def requiredOk : JVal → Bool
  | JVal.jobj fields => requiredFields.all (hasKey fields)
  | _ => false

/-- The response handling shared by `analyzeImage` and `analyzeText`
(`response.text` is `none` or `""` when the model returned no text; a
`parse` result of `none` is `JSON.parse`'s `SyntaxError`, rethrown by
`handleGeminiError` as a generic failure). -/
def handleResponseText (respText : Option String) (parse : String → Option JVal) :
    Except String JVal :=
  match respText with
  | none => Except.error "No response text from Gemini"
  | some t =>
    if t == "" then Except.error "No response text from Gemini"
    else
      match parse t with
      | none => Except.error "SyntaxError"
      | some v => Except.ok v

theorem splitScan_join (names : List (List Char)) :
    ∀ (fuel : Nat) (cur rest : List Char),
      (splitScan names fuel cur rest).flatten = cur.reverse ++ rest := by
  intro fuel
  induction fuel with
  | zero =>
    intro cur rest
    cases rest <;> simp [splitScan]
  | succ fuel ih =>
    intro cur rest
    cases rest with
    | nil => simp [splitScan]
    | cons c rest =>
      rw [splitScan]
      cases h : firstMatchLen names (c :: rest) with
      | none =>
        rw [ih]
        simp
      | some L =>
        cases L with
        | zero =>
          by_cases hc : cur.isEmpty
          · rw [List.isEmpty_iff] at hc
            subst hc
            simp [ih]
          · simp only [hc, Bool.false_eq_true, if_false, List.flatten_cons, ih]
            simp
        | succ L =>
          simp only [List.flatten_cons, ih]
          simp [List.take_append_drop]

theorem jsSplitParts_join (names : List (List Char)) (text : List Char) :
    (jsSplitParts names text).flatten = text := by
  rw [jsSplitParts]
  by_cases h : text.isEmpty && (firstMatchLen names text).isSome
  · rw [if_pos h]
    rcases Bool.and_eq_true_iff.mp h with ⟨h1, _⟩
    rw [List.isEmpty_iff] at h1
    simp [h1]
  · rw [if_neg h, splitScan_join]
    simp

theorem spanText_classifyPart (sorted : List Villain) (part : List Char) :
    spanText (classifyPart sorted part) = part := by
  rw [classifyPart]
  cases h : sorted.find? (fun v => lowerEq v.name part) <;> simp [spanText]

/-- The matcher's spans always concatenate back to the input text. -/
theorem textWithVillains_join (text : List Char) (villains : List Villain) :
    ((textWithVillains text villains).map spanText).flatten = text := by
  rw [textWithVillains]
  by_cases h : villains.isEmpty
  · simp [h, spanText]
  · rw [if_neg h]
    rw [List.map_map]
    have hmap :
        ∀ parts : List (List Char),
          parts.map (spanText ∘ classifyPart (sortByLenDesc villains)) = parts := by
      intro parts
      induction parts with
      | nil => rfl
      | cons p ps ihp => simp [Function.comp, spanText_classifyPart, ihp]
    rw [hmap, jsSplitParts_join]

/-! ### Properties of the stable length-descending sort -/

theorem mem_insertByLenDesc (v x : Villain) :
    ∀ l : List Villain, x ∈ insertByLenDesc v l ↔ x = v ∨ x ∈ l := by
  intro l
  induction l with
  | nil => simp [insertByLenDesc]
  | cons w ws ih =>
    rw [insertByLenDesc]
    by_cases h : v.name.length < w.name.length
    · rw [if_pos h]
      simp only [List.mem_cons, ih]
      tauto
    · rw [if_neg h]
      simp [List.mem_cons]

theorem pairwise_insertByLenDesc (v : Villain) :
    ∀ l : List Villain, l.Pairwise lenDescRel →
      (insertByLenDesc v l).Pairwise lenDescRel := by
  intro l
  induction l with
  | nil =>
    intro _
    simp [insertByLenDesc]
  | cons w ws ih =>
    intro hp
    rcases List.pairwise_cons.mp hp with ⟨hw, hws⟩
    rw [insertByLenDesc]
    by_cases h : v.name.length < w.name.length
    · rw [if_pos h]
      refine List.pairwise_cons.mpr ⟨?_, ih hws⟩
      intro x hx
      rcases (mem_insertByLenDesc v x ws).mp hx with rfl | hxw
      · exact le_of_lt h
      · exact hw x hxw
    · rw [if_neg h]
      refine List.pairwise_cons.mpr ⟨?_, hp⟩
      intro x hx
      rcases List.mem_cons.mp hx with rfl | hxw
      · exact le_of_not_lt h
      · exact le_trans (hw x hxw) (le_of_not_lt h)

theorem pairwise_sortByLenDesc (vs : List Villain) :
    (sortByLenDesc vs).Pairwise lenDescRel := by
  induction vs with
  | nil => simp [sortByLenDesc]
  | cons v vs ih => exact pairwise_insertByLenDesc v _ ih

theorem mem_sortByLenDesc (x : Villain) :
    ∀ vs : List Villain, x ∈ sortByLenDesc vs ↔ x ∈ vs := by
  intro vs
  induction vs with
  | nil => simp [sortByLenDesc]
  | cons v vs ih =>
    rw [sortByLenDesc, mem_insertByLenDesc]
    simp [List.mem_cons, ih]

/-- Stability of the sort, characterised through filters: the villains of any
fixed name length appear in the sorted list exactly in their original
order. -/
theorem filter_insertByLenDesc (v : Villain) (L : Nat) :
    ∀ l : List Villain,
      (insertByLenDesc v l).filter (fun x => x.name.length == L) =
        if v.name.length = L then
          v :: l.filter (fun x => x.name.length == L)
        else l.filter (fun x => x.name.length == L) := by
  intro l
  induction l with
  | nil =>
    rw [insertByLenDesc]
    by_cases h : v.name.length = L <;> simp [h, List.filter_cons, beq_iff_eq]
  | cons w ws ih =>
    rw [insertByLenDesc]
    by_cases h : v.name.length < w.name.length
    · rw [if_pos h]
      by_cases hv : v.name.length = L
      · have hw : ¬ (w.name.length = L) := by omega
        simp only [List.filter_cons]
        simp only [hv, if_pos rfl] at ih ⊢
        simp [hw, ih, hv, beq_iff_eq]
      · simp only [List.filter_cons]
        simp only [if_neg hv] at ih ⊢
        by_cases hw : w.name.length = L <;> simp [hw, ih, beq_iff_eq]
    · rw [if_neg h]
      by_cases hv : v.name.length = L <;> simp [hv, List.filter_cons, beq_iff_eq]

theorem filter_sortByLenDesc (L : Nat) :
    ∀ vs : List Villain,
      (sortByLenDesc vs).filter (fun x => x.name.length == L) =
        vs.filter (fun x => x.name.length == L) := by
  intro vs
  induction vs with
  | nil => rfl
  | cons v vs ih =>
    rw [sortByLenDesc, filter_insertByLenDesc]
    by_cases hv : v.name.length = L
    · simp [hv, ih, List.filter_cons, beq_iff_eq]
    · simp [hv, ih, List.filter_cons, beq_iff_eq]

/-! ### Properties of the alternation matcher `firstMatchLen` -/

theorem ciPrefixOf_append (n : List Char) :
    ∀ s t : List Char, ciPrefixOf n s = true → ciPrefixOf n (s ++ t) = true := by
  induction n with
  | nil => intro s t _; rfl
  | cons a as ih =>
    intro s t h
    cases s with
    | nil => simp [ciPrefixOf] at h
    | cons b bs =>
      rw [ciPrefixOf] at h
      rcases Bool.and_eq_true_iff.mp h with ⟨h1, h2⟩
      simp only [List.cons_append, ciPrefixOf]
      exact Bool.and_eq_true_iff.mpr ⟨h1, ih bs t h2⟩

theorem ciPrefixOf_length_le (n : List Char) :
    ∀ s : List Char, ciPrefixOf n s = true → n.length ≤ s.length := by
  induction n with
  | nil => intro s _; simp
  | cons a as ih =>
    intro s h
    cases s with
    | nil => simp [ciPrefixOf] at h
    | cons b bs =>
      rw [ciPrefixOf] at h
      rcases Bool.and_eq_true_iff.mp h with ⟨_, h2⟩
      simpa using ih bs h2

theorem lowerEq_take_of_ciPrefixOf (n : List Char) :
    ∀ s : List Char, ciPrefixOf n s = true → lowerEq n (s.take n.length) = true := by
  induction n with
  | nil => intro s _; rfl
  | cons a as ih =>
    intro s h
    cases s with
    | nil => simp [ciPrefixOf] at h
    | cons b bs =>
      rw [ciPrefixOf] at h
      rcases Bool.and_eq_true_iff.mp h with ⟨h1, h2⟩
      have := ih bs h2
      rw [lowerEq] at this ⊢
      simp only [List.length_cons, List.take_succ_cons, List.map_cons, List.cons_beq_cons]
      exact Bool.and_eq_true_iff.mpr ⟨h1, this⟩

theorem firstMatchLen_none (names : List (List Char)) (s : List Char)
    (h : firstMatchLen names s = none) :
    ∀ n ∈ names, ciPrefixOf n s = false := by
  induction names with
  | nil => intro n hn; simp at hn
  | cons m ms ih =>
    rw [firstMatchLen] at h
    by_cases hm : ciPrefixOf m s = true
    · rw [if_pos hm] at h; exact absurd h (by simp)
    · rw [if_neg hm] at h
      intro n hn
      rcases List.mem_cons.mp hn with rfl | hn2
      · exact Bool.not_eq_true _ ▸ Bool.of_not_eq_true hm
      · exact ih h n hn2

theorem firstMatchLen_some_exists (names : List (List Char)) (s : List Char) (L : Nat)
    (h : firstMatchLen names s = some L) :
    ∃ n ∈ names, ciPrefixOf n s = true ∧ n.length = L := by
  induction names with
  | nil => simp [firstMatchLen] at h
  | cons m ms ih =>
    rw [firstMatchLen] at h
    by_cases hm : ciPrefixOf m s = true
    · rw [if_pos hm] at h
      exact ⟨m, List.mem_cons_self m ms, hm, by injection h⟩
    · rw [if_neg hm] at h
      rcases ih h with ⟨n, hn, hp, hl⟩
      exact ⟨n, List.mem_cons_of_mem m hn, hp, hl⟩

/-- On a length-descending list of names (as produced by the sort), the
chosen alternative is at least as long as every name matching at the same
position: a longer term is never shadowed by a shorter one at the same
start. -/
theorem firstMatchLen_ge (names : List (List Char))
    (hs : names.Pairwise (fun a b => b.length ≤ a.length))
    (s : List Char) (L : Nat) (h : firstMatchLen names s = some L) :
    ∀ n ∈ names, ciPrefixOf n s = true → n.length ≤ L := by
  induction names with
  | nil => intro n hn; simp at hn
  | cons m ms ih =>
    rcases List.pairwise_cons.mp hs with ⟨hm1, hms⟩
    rw [firstMatchLen] at h
    by_cases hm : ciPrefixOf m s = true
    · rw [if_pos hm] at h
      injection h with h
      subst h
      intro n hn _
      rcases List.mem_cons.mp hn with rfl | hn2
      · exact le_refl _
      · exact hm1 n hn2
    · rw [if_neg hm] at h
      intro n hn hp
      rcases List.mem_cons.mp hn with rfl | hn2
      · exact absurd hp hm
      · exact ih hms h n hn2 hp

/-- A zero-length first match on a length-descending list means no nonempty
name matches at this position (the empty alternative sorts last). -/
theorem firstMatchLen_zero_no_nonempty (names : List (List Char))
    (hs : names.Pairwise (fun a b => b.length ≤ a.length))
    (s : List Char) (h : firstMatchLen names s = some 0) :
    ∀ n ∈ names, n ≠ [] → ciPrefixOf n s = false := by
  intro n hn hne
  by_cases hp : ciPrefixOf n s = true
  · have := firstMatchLen_ge names hs s 0 h n hn hp
    have : n.length = 0 := Nat.le_zero.mp this
    exact absurd (List.length_eq_zero.mp this) hne
  · exact Bool.of_not_eq_true hp

/-- A zero-length first match exhibits an empty name in the list. -/
theorem firstMatchLen_zero_exists_nil (names : List (List Char)) (s : List Char)
    (h : firstMatchLen names s = some 0) : [] ∈ names := by
  rcases firstMatchLen_some_exists names s 0 h with ⟨n, hn, _, hl⟩
  rw [List.length_eq_zero.mp hl] at hn
  exact hn

/-! ### Alternation structure of the split output

Even-positioned parts are the in-between chunks: with a length-descending
name list, no nonempty name occurs case-insensitively anywhere inside such a
chunk (the scan would have matched there).  Odd-positioned parts are the
matched substrings and case-insensitively equal one of the names. -/

theorem ciPrefixOf_nil_false (n : List Char) (h : n ≠ []) : ciPrefixOf n [] = false := by
  cases n with
  | nil => exact absurd rfl h
  | cons a as => rfl

theorem ciPrefixOf_false_of_append (n s t : List Char)
    (h : ciPrefixOf n (s ++ t) = false) : ciPrefixOf n s = false := by
  by_cases hp : ciPrefixOf n s = true
  · have := ciPrefixOf_append n s t hp
    simp [this] at h
  · exact Bool.of_not_eq_true hp

theorem splitScan_partsOK (names : List (List Char))
    (hs : names.Pairwise (fun a b => b.length ≤ a.length)) :
    ∀ (fuel : Nat) (cur rest : List Char), rest.length ≤ fuel →
      (∀ j, j < cur.length → ∀ n ∈ names, n ≠ [] →
        ciPrefixOf n (cur.reverse.drop j ++ rest) = false) →
      PartsOK names false (splitScan names fuel cur rest) := by
  intro fuel
  induction fuel with
  | zero =>
    intro cur rest hfuel hcur
    have : rest = [] := List.length_eq_zero.mp (Nat.le_zero.mp hfuel)
    subst this
    rw [splitScan]
    refine PartsOK.plainPart _ _ ?_ (PartsOK.nil _)
    intro n hn hne j
    by_cases hj : j < cur.length
    · have := hcur j hj n hn hne
      simpa using this
    · rw [List.drop_eq_nil_of_le (by simpa using Nat.le_of_not_lt hj)]
      exact ciPrefixOf_nil_false n hne
  | succ fuel ih =>
    intro cur rest hfuel hcur
    cases rest with
    | nil =>
      rw [splitScan]
      refine PartsOK.plainPart _ _ ?_ (PartsOK.nil _)
      intro n hn hne j
      by_cases hj : j < cur.length
      · have := hcur j hj n hn hne
        simpa using this
      · rw [List.drop_eq_nil_of_le (by simpa using Nat.le_of_not_lt hj)]
        exact ciPrefixOf_nil_false n hne
    | cons c rest =>
      rw [splitScan]
      cases h : firstMatchLen names (c :: rest) with
      | none =>
        refine ih (c :: cur) rest (by simpa using hfuel) ?_
        intro j hj n hn hne
        simp only [List.reverse_cons]
        by_cases hjc : j < cur.length
        · rw [List.drop_append_of_le_length (by simpa using Nat.le_of_lt hjc)]
          have := hcur j hjc n hn hne
          simpa using this
        · have hj1 : j = cur.length := by
            simp only [List.length_cons] at hj
            omega
          subst hj1
          rw [show cur.length = (cur.reverse).length by simp,
              List.drop_left, List.singleton_append]
          exact firstMatchLen_none names (c :: rest) h n hn
      | some L =>
        cases L with
        | zero =>
          have hnomatch : ∀ n ∈ names, n ≠ [] → ciPrefixOf n (c :: rest) = false :=
            firstMatchLen_zero_no_nonempty names hs (c :: rest) h
          by_cases hc : cur.isEmpty
          · rw [if_pos hc]
            refine ih [c] rest (by simpa using hfuel) ?_
            intro j hj n hn hne
            have hj0 : j = 0 := by simp at hj; omega
            subst hj0
            simpa using hnomatch n hn hne
          · rw [if_neg hc]
            refine PartsOK.plainPart _ _ ?_ (PartsOK.hitPart _ _ ?_ ?_)
            · intro n hn hne j
              by_cases hj : j < cur.length
              · exact ciPrefixOf_false_of_append n _ _ (hcur j hj n hn hne)
              · rw [List.drop_eq_nil_of_le (by simpa using Nat.le_of_not_lt hj)]
                exact ciPrefixOf_nil_false n hne
            · exact ⟨[], firstMatchLen_zero_exists_nil names (c :: rest) h, rfl⟩
            · refine ih [c] rest (by simpa using hfuel) ?_
              intro j hj n hn hne
              have hj0 : j = 0 := by simp at hj; omega
              subst hj0
              simpa using hnomatch n hn hne
        | succ L =>
          refine PartsOK.plainPart _ _ ?_ (PartsOK.hitPart _ _ ?_ ?_)
          · intro n hn hne j
            by_cases hj : j < cur.length
            · exact ciPrefixOf_false_of_append n _ _ (hcur j hj n hn hne)
            · rw [List.drop_eq_nil_of_le (by simpa using Nat.le_of_not_lt hj)]
              exact ciPrefixOf_nil_false n hne
          · rcases firstMatchLen_some_exists names (c :: rest) (L + 1) h with
              ⟨n, hn, hp, hl⟩
            refine ⟨n, hn, ?_⟩
            have := lowerEq_take_of_ciPrefixOf n (c :: rest) hp
            rwa [hl] at this
          · refine ih [] _ ?_ ?_
            · simp only [List.length_drop, List.length_cons] at hfuel ⊢
              omega
            · intro j hj
              simp at hj

theorem partsOK_no_plain_occurrence (sorted : List Villain) (b : Bool)
    (parts : List (List Char))
    (hok : PartsOK (sorted.map (fun v => v.name)) b parts) :
    ∀ p, Span.plain p ∈ parts.map (classifyPart sorted) →
      ∀ n ∈ sorted.map (fun v => v.name), n ≠ [] → ∀ j,
        ciPrefixOf n (p.drop j) = false := by
  induction hok with
  | nil => simp
  | plainPart q ps hq _ ih =>
    intro p hp n hn hne j
    rw [List.map_cons] at hp
    rcases List.mem_cons.mp hp with hhead | htail
    · cases hfind : sorted.find? (fun v => lowerEq v.name q) with
      | some w =>
        have hcq : classifyPart sorted q = Span.marked q w := by
          simp [classifyPart, hfind]
        rw [hcq] at hhead
        exact absurd hhead (by simp)
      | none =>
        have hcq : classifyPart sorted q = Span.plain q := by
          simp [classifyPart, hfind]
        rw [hcq] at hhead
        have hpq : p = q := by injection hhead
        subst hpq
        exact hq n hn hne j
    · exact ih p htail n hn hne j
  | hitPart q ps hq _ ih =>
    intro p hp n hn hne j
    rw [List.map_cons] at hp
    rcases List.mem_cons.mp hp with hhead | htail
    · rcases hq with ⟨m, hm, hml⟩
      rcases List.mem_map.mp hm with ⟨w, hw, hwname⟩
      have hnn : sorted.find? (fun v => lowerEq v.name q) ≠ none := by
        intro hnone
        have := List.find?_eq_none.mp hnone w hw
        rw [hwname] at this
        exact this hml
      rcases Option.ne_none_iff_exists.mp hnn with ⟨u, hu⟩
      have hcq : classifyPart sorted q = Span.marked q u := by
        simp [classifyPart, ← hu]
      rw [hcq] at hhead
      exact absurd hhead (by simp)
    · exact ih p htail n hn hne j

/-- No nonempty villain name occurs case-insensitively inside any plain span
of the matcher output: an occurrence can escape highlighting only by
overlapping a highlighted span. -/
theorem textWithVillains_plain_no_occurrence (text : List Char) (vs : List Villain)
    (hne : ∀ v ∈ vs, v.name ≠ []) :
    ∀ p, Span.plain p ∈ textWithVillains text vs →
      ∀ v ∈ vs, ∀ j, ciPrefixOf v.name (p.drop j) = false := by
  intro p hp v hv j
  rw [textWithVillains] at hp
  by_cases h : vs.isEmpty
  · rw [List.isEmpty_iff] at h
    subst h
    simp at hv
  · rw [if_neg h] at hp
    have hpair : ((sortByLenDesc vs).map (fun v => v.name)).Pairwise
        (fun a b => b.length ≤ a.length) := by
      refine List.Pairwise.map _ ?_ (pairwise_sortByLenDesc vs)
      intro a b hab
      exact hab
    have hok : PartsOK ((sortByLenDesc vs).map (fun v => v.name)) false
        (jsSplitParts ((sortByLenDesc vs).map (fun v => v.name)) text) := by
      rw [jsSplitParts]
      by_cases hemp : text.isEmpty && (firstMatchLen ((sortByLenDesc vs).map (fun v => v.name)) text).isSome
      · rw [if_pos hemp]
        exact PartsOK.nil _
      · rw [if_neg hemp]
        refine splitScan_partsOK _ hpair text.length [] text (le_refl _) ?_
        intro j hj
        simp at hj
    refine partsOK_no_plain_occurrence (sortByLenDesc vs) false _ hok p hp
      v.name ?_ (hne v hv) j
    exact List.mem_map.mpr ⟨v, (mem_sortByLenDesc v vs).mpr hv, rfl⟩

/-! ### Scheduler invariants -/

theorem tickMain_analyzing_skip {ρ : Type} (s : SchedState ρ) (now : Int) (ready : Bool)
    (h : s.isAnalyzing = true) : tickMain s now ready = s := by
  rw [tickMain, if_pos]
  rw [h]
  simp

theorem tickMain_flightInv {ρ : Type} (s : SchedState ρ) (now : Int) (ready : Bool)
    (h1 : s.inFlight.length ≤ 1) (h2 : s.isAnalyzing = false → s.inFlight = []) :
    flightInv (tickMain s now ready) := by
  rw [tickMain]
  by_cases ha : (s.isAnalyzing || decide (now - s.lastAnalysisTime < 3000)) = true
  · rw [if_pos ha]
    exact ⟨h1, h2⟩
  · rw [if_neg ha]
    have hana : s.isAnalyzing = false := by
      rcases Bool.or_eq_false_iff.mp (Bool.eq_false_iff.mpr ha) with ⟨hl, _⟩
      exact hl
    by_cases hr : (!ready) = true
    · rw [if_pos hr]
      exact ⟨h1, h2⟩
    · rw [if_neg hr]
      refine ⟨?_, ?_⟩
      · simp [h2 hana]
      · intro hfalse
        simp at hfalse

theorem tickStep_flightInv {ρ : Type} (s : SchedState ρ) (now : Int) (ready : Bool)
    (h : flightInv s) : flightInv (tickStep s now ready) := by
  rcases h with ⟨h1, h2⟩
  rw [tickStep]
  by_cases hc : s.isCoolingDown = true
  · rw [if_pos hc]
    by_cases ht : now > s.lastAnalysisTime + 3000
    · rw [if_pos ht]
      exact tickMain_flightInv _ now ready (by simpa using h1) (by simpa using h2)
    · rw [if_neg ht]
      exact ⟨h1, h2⟩
  · rw [if_neg hc]
    exact tickMain_flightInv s now ready h1 h2

theorem schedStep_flightInv {ρ : Type} (s : SchedState ρ) (e : Ev ρ)
    (h : flightInv s) : flightInv (schedStep s e) := by
  cases e with
  | tick now ready => exact tickStep_flightInv s now ready h
  | resolve now out =>
    rcases h with ⟨h1, _⟩
    show flightInv (resolveStep s now out)
    rw [resolveStep]
    cases hf : s.inFlight with
    | nil => exact ⟨by simp [hf], by simp [hf]⟩
    | cons c rest =>
      have hrest : rest = [] := by
        rw [hf] at h1
        simpa using h1
      subst hrest
      cases out <;> exact ⟨by simp, by simp⟩
  | changeCtx c =>
    rcases h with ⟨h1, h2⟩
    exact ⟨h1, h2⟩

theorem foldl_flightInv {ρ : Type} (evs : List (Ev ρ)) :
    ∀ s : SchedState ρ, flightInv s → flightInv (evs.foldl schedStep s) := by
  induction evs with
  | nil => intro s h; exact h
  | cons e evs ih =>
    intro s h
    exact ih (schedStep s e) (schedStep_flightInv s e h)

theorem runEvents_flightInv {ρ : Type} (evs : List (Ev ρ)) :
    flightInv (runEvents evs) := by
  refine foldl_flightInv evs (schedInit ρ) ?_
  exact ⟨by simp [schedInit], fun _ => rfl⟩

theorem resolveStep_success {ρ : Type} (s : SchedState ρ) (now : Int) (r : ρ)
    (c : PersonaCtx) (rest : List PersonaCtx) (hf : s.inFlight = c :: rest) :
    resolveStep s now (Outcome.success r) =
      { s with result := some r, lastAnalysisTime := now,
               isAnalyzing := false, inFlight := rest } := by
  rw [resolveStep, hf]

theorem resolveStep_quota {ρ : Type} (s : SchedState ρ) (now : Int)
    (c : PersonaCtx) (rest : List PersonaCtx) (hf : s.inFlight = c :: rest) :
    resolveStep s now Outcome.quotaExceeded =
      { s with errorShown := true, isCoolingDown := true,
               lastAnalysisTime := now + 10000,
               isAnalyzing := false, inFlight := rest } := by
  rw [resolveStep, hf]

theorem resolveStep_other {ρ : Type} (s : SchedState ρ) (now : Int)
    (c : PersonaCtx) (rest : List PersonaCtx) (hf : s.inFlight = c :: rest) :
    resolveStep s now Outcome.otherError =
      { s with isAnalyzing := false, inFlight := rest } := by
  rw [resolveStep, hf]

/-! ### Claims about the scheduler -/

/-- C4 (confirmed): with `lastInvocationAt = t0`, no cooldown and no
in-flight call, the tick at `t0 + 1000` is a skip that leaves the state
untouched, and the tick at exactly `t0 + 3000` (with a ready frame) starts
an invocation. -/
theorem c4_spacing_confirmed {ρ : Type} (s : SchedState ρ) (t0 : Int)
    (hcool : s.isCoolingDown = false) (hana : s.isAnalyzing = false)
    (hlast : s.lastAnalysisTime = t0) :
    (∀ ready, tickStep s (t0 + 1000) ready = s) ∧
    ((tickStep s (t0 + 3000) true).isAnalyzing = true ∧
     (tickStep s (t0 + 3000) true).inFlight = s.inFlight ++ [s.context]) := by
  constructor
  · intro ready
    rw [tickStep, if_neg (by simp [hcool]), tickMain, if_pos]
    rw [hana, hlast]
    simp only [Bool.false_or, decide_eq_true_eq]
    omega
  · rw [tickStep, if_neg (by simp [hcool]), tickMain, if_neg, if_neg]
    · constructor <;> rfl
    · simp
    · rw [hana, hlast]
      simp only [Bool.false_or, Bool.or_eq_true, decide_eq_true_eq]
      omega

theorem c4_spacing_confirmed_witness :
    tickStep (schedInit Nat) (0 + 1000) true = schedInit Nat ∧
    (tickStep (schedInit Nat) (0 + 3000) true).isAnalyzing = true :=
  ⟨(c4_spacing_confirmed (schedInit Nat) 0 rfl rfl rfl).1 true,
   (c4_spacing_confirmed (schedInit Nat) 0 rfl rfl rfl).2.1⟩

/-- C6 (confirmed): along every event trace from the initial state at most
one invocation is in flight, and a tick taken while one is awaiting its
response never starts another (it leaves the in-flight list unchanged and
the analyzing flag set). -/
theorem c6_single_flight_confirmed :
    (∀ (ρ : Type) (evs : List (Ev ρ)), ((runEvents evs).inFlight).length ≤ 1) ∧
    (∀ (ρ : Type) (s : SchedState ρ) (now : Int) (ready : Bool),
      s.isAnalyzing = true →
        (tickStep s now ready).inFlight = s.inFlight ∧
        (tickStep s now ready).isAnalyzing = true) := by
  constructor
  · intro ρ evs
    exact (runEvents_flightInv evs).1
  · intro ρ s now ready hana
    rw [tickStep]
    by_cases hc : s.isCoolingDown = true
    · rw [if_pos hc]
      by_cases ht : now > s.lastAnalysisTime + 3000
      · rw [if_pos ht, tickMain_analyzing_skip _ now ready (by simpa using hana)]
        exact ⟨rfl, hana⟩
      · rw [if_neg ht]
        exact ⟨rfl, hana⟩
    · rw [if_neg hc, tickMain_analyzing_skip _ now ready hana]
      exact ⟨rfl, hana⟩

theorem c6_single_flight_confirmed_witness :
    ((runEvents ([Ev.tick 5000 true] : List (Ev Nat))).inFlight).length ≤ 1 ∧
    (tickStep { schedInit Nat with isAnalyzing := true } 0 true).inFlight =
      ({ schedInit Nat with isAnalyzing := true } : SchedState Nat).inFlight :=
  ⟨c6_single_flight_confirmed.1 Nat [Ev.tick 5000 true],
   (c6_single_flight_confirmed.2 Nat { schedInit Nat with isAnalyzing := true } 0 true rfl).1⟩

/-- C1 counterexample: after a `QUOTA_EXCEEDED` outcome at `t0 = 0` the tick
at exactly `t0 + 10000` does NOT clear the cooldown and is not allowed to
attempt — it leaves the state completely unchanged (the code keeps skipping
until `now > t0 + 13000`). -/
theorem c1_original_cooldown_refuted :
    (resolveStep { schedInit Nat with isAnalyzing := true, inFlight := [none] } 0
        Outcome.quotaExceeded).lastAnalysisTime = 0 + 10000 ∧
    (tickStep (resolveStep { schedInit Nat with isAnalyzing := true, inFlight := [none] } 0
        Outcome.quotaExceeded) (0 + 10000) true).isCoolingDown = true ∧
    tickStep (resolveStep { schedInit Nat with isAnalyzing := true, inFlight := [none] } 0
        Outcome.quotaExceeded) (0 + 10000) true =
      resolveStep { schedInit Nat with isAnalyzing := true, inFlight := [none] } 0
        Outcome.quotaExceeded := by
  refine ⟨rfl, rfl, rfl⟩

/-- C1 (amended): a `QUOTA_EXCEEDED` outcome at `t0` sets the cooldown flag
and writes `lastAnalysisTime = t0 + 10000` (there is no separate
`cooldownUntil`); every tick with `now ≤ t0 + 13000` — in particular every
tick in `(t0, t0 + 10000)` — is skipped with the state unchanged, even when
spacing alone would allow it; the first tick with `now > t0 + 13000` clears
the cooldown and the error and is allowed to start an invocation. -/
theorem c1_cooldown_amended {ρ : Type} (s : SchedState ρ) (t0 : Int)
    (ctx : PersonaCtx) (rest : List PersonaCtx) (hf : s.inFlight = ctx :: rest) :
    (resolveStep s t0 Outcome.quotaExceeded).isCoolingDown = true ∧
    (resolveStep s t0 Outcome.quotaExceeded).lastAnalysisTime = t0 + 10000 ∧
    (∀ now ready, now ≤ t0 + 13000 →
      tickStep (resolveStep s t0 Outcome.quotaExceeded) now ready =
        resolveStep s t0 Outcome.quotaExceeded) ∧
    (∀ now, t0 + 13000 < now →
      (tickStep (resolveStep s t0 Outcome.quotaExceeded) now true).isCoolingDown = false ∧
      (tickStep (resolveStep s t0 Outcome.quotaExceeded) now true).isAnalyzing = true) := by
  rw [resolveStep_quota s t0 ctx rest hf]
  refine ⟨rfl, rfl, ?_, ?_⟩
  · intro now ready hnow
    rw [tickStep, if_pos rfl, if_neg]
    simp only [not_lt]
    omega
  · intro now hnow
    rw [tickStep, if_pos rfl, if_pos (by simp only; omega), tickMain, if_neg, if_neg]
    · exact ⟨rfl, rfl⟩
    · simp
    · simp only [Bool.false_or, Bool.or_eq_true, decide_eq_true_eq]
      omega

theorem c1_cooldown_amended_witness :
    (resolveStep { schedInit Nat with isAnalyzing := true, inFlight := [none] } 0
        Outcome.quotaExceeded).isCoolingDown = true ∧
    tickStep (resolveStep { schedInit Nat with isAnalyzing := true, inFlight := [none] } 0
        Outcome.quotaExceeded) 5000 true =
      resolveStep { schedInit Nat with isAnalyzing := true, inFlight := [none] } 0
        Outcome.quotaExceeded ∧
    (tickStep (resolveStep { schedInit Nat with isAnalyzing := true, inFlight := [none] } 0
        Outcome.quotaExceeded) 13001 true).isAnalyzing = true :=
  ⟨(c1_cooldown_amended _ 0 none [] rfl).1,
   (c1_cooldown_amended _ 0 none [] rfl).2.2.1 5000 true (by omega),
   ((c1_cooldown_amended _ 0 none [] rfl).2.2.2 13001 (by omega)).2⟩

/-- C3 counterexample: an invocation issued while persona context A
(`diabetic`/`type1`) is active and resolving after the context changed to B
(`allergies`/`treenut`) is NOT discarded: its payload becomes the published
result.  The trace below selects A, ticks (starting an invocation carrying
A), switches to B, and then resolves successfully. -/
theorem c3_stale_discard_refuted :
    (runEvents ([Ev.changeCtx (some ("diabetic", "type1")), Ev.tick 5000 true,
        Ev.changeCtx (some ("allergies", "treenut"))] : List (Ev Nat))).inFlight =
      [some ("diabetic", "type1")] ∧
    (runEvents [Ev.changeCtx (some ("diabetic", "type1")), Ev.tick 5000 true,
        Ev.changeCtx (some ("allergies", "treenut")),
        Ev.resolve 6000 (Outcome.success (42 : Nat))]).context =
      some ("allergies", "treenut") ∧
    (runEvents [Ev.changeCtx (some ("diabetic", "type1")), Ev.tick 5000 true,
        Ev.changeCtx (some ("allergies", "treenut")),
        Ev.resolve 6000 (Outcome.success (42 : Nat))]).result = some 42 := by
  refine ⟨by decide, by decide, by decide⟩

/-- C3 (amended): the code has no stale-result guard — a successful
resolution always publishes its payload, whatever the current context is;
the only mitigation is that a context change clears the currently displayed
result at the moment of the change. -/
theorem c3_stale_result_amended {ρ : Type} (s : SchedState ρ) (now : Int) (r : ρ)
    (ctx : PersonaCtx) (rest : List PersonaCtx) (hf : s.inFlight = ctx :: rest) :
    (resolveStep s now (Outcome.success r)).result = some r ∧
    (∀ c, (changeCtxStep s c).result = none ∧ (changeCtxStep s c).context = c) := by
  rw [resolveStep_success s now r ctx rest hf]
  exact ⟨rfl, fun c => ⟨rfl, rfl⟩⟩

theorem c3_stale_result_amended_witness :
    (resolveStep { schedInit Nat with isAnalyzing := true, inFlight := [some ("diabetic", "type1")] } 6000 (Outcome.success (42 : Nat))).result = some 42 :=
  (c3_stale_result_amended _ 6000 42 (some ("diabetic", "type1")) [] rfl).1

/-- C7 counterexample: right after a persona-context change
(`confirmSubOption`), the next tick does NOT run unconditionally: with
`lastAnalysisTime = 0` the tick at `now = 1000` is still blocked by the
3000 ms spacing rule and starts no invocation — there is no force-flag in
the code. -/
theorem c7_force_flag_refuted :
    tickStep (changeCtxStep (schedInit Nat) (some ("diabetic", "type1"))) 1000 true =
      changeCtxStep (schedInit Nat) (some ("diabetic", "type1")) ∧
    (tickStep (changeCtxStep (schedInit Nat) (some ("diabetic", "type1"))) 1000 true).isAnalyzing
      = false := by
  refine ⟨by decide, by decide⟩

/-- C7 (amended): a persona-context change clears the published result and
the subsequent rescan picks up the new context, but it sets no force-flag:
the next tick still obeys the minimum spacing (and the cooldown gate)
exactly as if no change had happened. -/
theorem c7_context_change_amended {ρ : Type} (s : SchedState ρ) (c : PersonaCtx)
    (now : Int) (ready : Bool) (hcool : s.isCoolingDown = false)
    (hspace : now - s.lastAnalysisTime < 3000) :
    (changeCtxStep s c).result = none ∧
    (changeCtxStep s c).context = c ∧
    tickStep (changeCtxStep s c) now ready = changeCtxStep s c := by
  refine ⟨rfl, rfl, ?_⟩
  rw [tickStep, if_neg (by simp [changeCtxStep, hcool]), tickMain, if_pos]
  simp only [changeCtxStep, Bool.or_eq_true, decide_eq_true_eq]
  right
  exact hspace

theorem c7_context_change_amended_witness :
    (changeCtxStep (schedInit Nat) (some ("diabetic", "type1"))).result = none ∧
    tickStep (changeCtxStep (schedInit Nat) (some ("diabetic", "type1"))) 1000 true =
      changeCtxStep (schedInit Nat) (some ("diabetic", "type1")) :=
  ⟨(c7_context_change_amended (schedInit Nat) (some ("diabetic", "type1")) 1000 true rfl
      (by decide)).1,
   (c7_context_change_amended (schedInit Nat) (some ("diabetic", "type1")) 1000 true rfl
      (by decide)).2.2⟩

/-- C10 counterexample: a non-success outcome does update
`lastInvocationAt`: a `QUOTA_EXCEEDED` resolution at `now = 5` overwrites
`lastAnalysisTime` from `0` to `10005`, so "only a successful invocation
updates the published result and lastInvocationAt" fails on the code. -/
theorem c10_only_success_updates_refuted :
    ({ schedInit Nat with isAnalyzing := true, inFlight := [none] } :
        SchedState Nat).lastAnalysisTime = 0 ∧
    (resolveStep { schedInit Nat with isAnalyzing := true, inFlight := [none] } 5
        Outcome.quotaExceeded).lastAnalysisTime = 10005 := by
  refine ⟨rfl, rfl⟩

/-- C10 (amended): a tick whose invocation fails with an outcome other than
`QUOTA_EXCEEDED` leaves the published result, `lastAnalysisTime`, the
cooldown state and the error banner unchanged (it only clears the in-flight
flag); a `QUOTA_EXCEEDED` outcome leaves the result unchanged but enters
cooldown and writes `lastAnalysisTime = now + 10000` (the cooldown clock);
only success publishes a result, setting `lastAnalysisTime` to the
resolution time and leaving the cooldown state unchanged. -/
theorem c10_error_atomicity_amended {ρ : Type} (s : SchedState ρ) (now : Int)
    (ctx : PersonaCtx) (rest : List PersonaCtx) (hf : s.inFlight = ctx :: rest) :
    ((resolveStep s now Outcome.otherError).result = s.result ∧
     (resolveStep s now Outcome.otherError).lastAnalysisTime = s.lastAnalysisTime ∧
     (resolveStep s now Outcome.otherError).isCoolingDown = s.isCoolingDown ∧
     (resolveStep s now Outcome.otherError).errorShown = s.errorShown ∧
     (resolveStep s now Outcome.otherError).isAnalyzing = false) ∧
    ((resolveStep s now Outcome.quotaExceeded).result = s.result ∧
     (resolveStep s now Outcome.quotaExceeded).isCoolingDown = true ∧
     (resolveStep s now Outcome.quotaExceeded).lastAnalysisTime = now + 10000) ∧
    (∀ r : ρ,
     (resolveStep s now (Outcome.success r)).result = some r ∧
     (resolveStep s now (Outcome.success r)).lastAnalysisTime = now ∧
     (resolveStep s now (Outcome.success r)).isCoolingDown = s.isCoolingDown) := by
  refine ⟨?_, ?_, ?_⟩
  · rw [resolveStep_other s now ctx rest hf]
    exact ⟨rfl, rfl, rfl, rfl, rfl⟩
  · rw [resolveStep_quota s now ctx rest hf]
    exact ⟨rfl, rfl, rfl⟩
  · intro r
    rw [resolveStep_success s now r ctx rest hf]
    exact ⟨rfl, rfl, rfl⟩

theorem c10_error_atomicity_amended_witness :
    (resolveStep { schedInit Nat with isAnalyzing := true, inFlight := [none] } 5
        Outcome.otherError).result = none ∧
    (resolveStep { schedInit Nat with isAnalyzing := true, inFlight := [none] } 5
        Outcome.otherError).lastAnalysisTime = 0 :=
  ⟨((c10_error_atomicity_amended _ 5 none [] rfl).1).1,
   ((c10_error_atomicity_amended _ 5 none [] rfl).1).2.1⟩

/-! ### Claims about the invoker response handling -/

/-- C8 counterexample: a response whose payload parses as JSON but carries
only `summary` — violating the required-field contract — is returned as-is
(`JSON.parse(text) as AnalysisResult` performs no validation), not treated
as a failed attempt. -/
theorem c8_parse_contract_refuted :
    handleResponseText (some "x")
        (fun _ => some (JVal.jobj [("summary", JVal.jstr "ok")])) =
      Except.ok (JVal.jobj [("summary", JVal.jstr "ok")]) ∧
    requiredOk (JVal.jobj [("summary", JVal.jstr "ok")]) = false := by
  exact ⟨rfl, rfl⟩

/-- C8 (amended): a missing or empty response text, and a payload that does
not parse as JSON, are thrown as errors and hence are failed attempts with
the same scheduling consequence as a generic error; but a payload that
parses is returned unconditionally — the required-field contract is not
checked client-side (it is only declared to the service in
`analysisSchema.required`), so a parsed-but-incomplete payload becomes a
partial result. -/
theorem c8_response_handling_amended (parse : String → Option JVal) :
    (handleResponseText none parse = Except.error "No response text from Gemini") ∧
    (handleResponseText (some "") parse = Except.error "No response text from Gemini") ∧
    (∀ t, t ≠ "" → parse t = none →
      handleResponseText (some t) parse = Except.error "SyntaxError") ∧
    (∀ t v, t ≠ "" → parse t = some v →
      handleResponseText (some t) parse = Except.ok v) := by
  refine ⟨rfl, rfl, ?_, ?_⟩
  · intro t ht hp
    rw [handleResponseText, if_neg (by simpa using ht), hp]
  · intro t v ht hp
    rw [handleResponseText, if_neg (by simpa using ht), hp]

theorem c8_response_handling_amended_witness :
    handleResponseText none (fun _ => none) =
      Except.error "No response text from Gemini" ∧
    handleResponseText (some "x")
        (fun _ => some (JVal.jobj [("summary", JVal.jstr "ok")])) =
      Except.ok (JVal.jobj [("summary", JVal.jstr "ok")]) :=
  ⟨(c8_response_handling_amended (fun _ => none)).1,
   (c8_response_handling_amended (fun _ => some (JVal.jobj [("summary", JVal.jstr "ok")]))).2.2.2
     "x" (JVal.jobj [("summary", JVal.jstr "ok")]) (by decide) rfl⟩

/-! ### Claims about the term matcher -/

/-- C2 counterexample: for text `"aaa"` and the single term `"aa"`, the term
occurs (case-insensitively) at offset 1, but that occurrence does not lie
inside a highlighted span — the scan matched `"aa"` at offset 0 and resumed
after it, so the overlapping occurrence ends in a plain span.  The claim's
universal occurrence-capture guarantee is therefore false. -/
theorem c2_occurrence_capture_refuted :
    containsCI "aaa".toList "aa".toList = true ∧
    allOccurrencesCaptured "aaa".toList [⟨"aa".toList, []⟩] = false := by
  exact ⟨by decide, by decide⟩

/-- C2 (amended): for every text and every term list, the span texts
concatenate back to the input exactly; no (nonempty) term name occurs
case-insensitively anywhere inside a plain span, so an occurrence can escape
being highlighted only by overlapping an earlier highlighted span; and on
the concrete example `"Contains Maltodextrin and Corn Syrup"` with terms
`Corn Syrup` and `Maltodextrin`, in either list order, both term occurrences
become Match spans and the spans concatenate to the input. -/
theorem c2_matcher_spans_amended :
    (∀ (text : List Char) (vs : List Villain),
      ((textWithVillains text vs).map spanText).flatten = text) ∧
    (∀ (text : List Char) (vs : List Villain), (∀ v ∈ vs, v.name ≠ []) →
      ∀ p, Span.plain p ∈ textWithVillains text vs →
        ∀ v ∈ vs, ∀ j, ciPrefixOf v.name (p.drop j) = false) ∧
    (textWithVillains "Contains Maltodextrin and Corn Syrup".toList
        [⟨"Corn Syrup".toList, "c".toList⟩, ⟨"Maltodextrin".toList, "m".toList⟩] =
      [Span.plain "Contains ".toList,
       Span.marked "Maltodextrin".toList ⟨"Maltodextrin".toList, "m".toList⟩,
       Span.plain " and ".toList,
       Span.marked "Corn Syrup".toList ⟨"Corn Syrup".toList, "c".toList⟩,
       Span.plain []]) ∧
    (textWithVillains "Contains Maltodextrin and Corn Syrup".toList
        [⟨"Maltodextrin".toList, "m".toList⟩, ⟨"Corn Syrup".toList, "c".toList⟩] =
      [Span.plain "Contains ".toList,
       Span.marked "Maltodextrin".toList ⟨"Maltodextrin".toList, "m".toList⟩,
       Span.plain " and ".toList,
       Span.marked "Corn Syrup".toList ⟨"Corn Syrup".toList, "c".toList⟩,
       Span.plain []]) := by
  exact ⟨textWithVillains_join, textWithVillains_plain_no_occurrence,
    by decide, by decide⟩

theorem c2_matcher_spans_amended_witness :
    ((textWithVillains "aaa".toList [⟨"aa".toList, []⟩]).map spanText).flatten
      = "aaa".toList ∧
    ciPrefixOf "aa".toList (("xy".toList).drop 0) = false :=
  ⟨c2_matcher_spans_amended.1 "aaa".toList [⟨"aa".toList, []⟩],
   c2_matcher_spans_amended.2.1 "xy".toList [⟨"aa".toList, []⟩] (by decide)
     "xy".toList (by decide) ⟨"aa".toList, []⟩ (by decide) 0⟩

/-- C5 counterexample: terms `"aa"` and `"aab"` ("aa" is a substring of
"aab") with text `"aaab"`, which contains the longer name at offset 1: the
scan matches `"aa"` at offset 0 first, so no span covers the full `"aab"` —
the universally quantified claim fails when an earlier overlapping match
consumes part of the longer occurrence. -/
theorem c5_longest_match_refuted :
    containsCI "aab".toList "aa".toList = true ∧
    containsCI "aaab".toList "aab".toList = true ∧
    ((textWithVillains "aaab".toList [⟨"aa".toList, []⟩, ⟨"aab".toList, []⟩]).any
      (fun sp => spanIsHit sp && lowerEq (spanText sp) "aab".toList)) = false := by
  exact ⟨by decide, by decide, by decide⟩

/-- C5 (amended): the sort is by name length descending and stable (terms of
any fixed name length keep their original relative order); at any single
scan position the chosen alternative is at least as long as every term name
matching there, so a term is never shadowed by a shorter substring term at
the same start position (a longer occurrence can still be lost to an
earlier overlapping match); on the concrete example
`"High Fructose Corn Syrup is present"` with terms `Corn Syrup` and
`High Fructose Corn Syrup`, the single Match span covers the full longer
phrase. -/
theorem c5_longest_match_amended :
    (∀ (vs : List Villain) (L : Nat),
      (sortByLenDesc vs).filter (fun x => x.name.length == L) =
        vs.filter (fun x => x.name.length == L)) ∧
    (∀ vs : List Villain, (sortByLenDesc vs).Pairwise lenDescRel) ∧
    (∀ (vs : List Villain) (s : List Char) (L : Nat),
      firstMatchLen ((sortByLenDesc vs).map (fun v => v.name)) s = some L →
      ∀ v ∈ vs, ciPrefixOf v.name s = true → v.name.length ≤ L) ∧
    (textWithVillains "High Fructose Corn Syrup is present".toList
        [⟨"Corn Syrup".toList, "c".toList⟩,
         ⟨"High Fructose Corn Syrup".toList, "h".toList⟩] =
      [Span.plain [],
       Span.marked "High Fructose Corn Syrup".toList
         ⟨"High Fructose Corn Syrup".toList, "h".toList⟩,
       Span.plain " is present".toList]) := by
  refine ⟨fun vs L => filter_sortByLenDesc L vs, pairwise_sortByLenDesc, ?_, by decide⟩
  intro vs s L hm v hv hp
  have hpair : ((sortByLenDesc vs).map (fun v => v.name)).Pairwise
      (fun a b => b.length ≤ a.length) := by
    refine List.Pairwise.map _ ?_ (pairwise_sortByLenDesc vs)
    intro a b hab
    exact hab
  refine firstMatchLen_ge _ hpair s L hm v.name ?_ hp
  exact List.mem_map.mpr ⟨v, (mem_sortByLenDesc v vs).mpr hv, rfl⟩

theorem c5_longest_match_amended_witness :
    (sortByLenDesc [⟨"aa".toList, []⟩, ⟨"aab".toList, []⟩]).filter
        (fun x => x.name.length == 2) =
      ([⟨"aa".toList, []⟩, ⟨"aab".toList, []⟩] : List Villain).filter
        (fun x => x.name.length == 2) ∧
    ("aab".toList : List Char).length ≤ 3 :=
  ⟨c5_longest_match_amended.1 [⟨"aa".toList, []⟩, ⟨"aab".toList, []⟩] 2,
   c5_longest_match_amended.2.2.1 [⟨"aa".toList, []⟩, ⟨"aab".toList, []⟩]
     "aab and more".toList 3 (by decide) ⟨"aab".toList, []⟩ (by decide) (by decide)⟩

/-- C9 counterexample: matching the empty string against the nonempty term
list `["aa"]` does not yield an empty span sequence — `"".split(re)` is
`[""]`, which renders as one empty plain span. -/
theorem c9_empty_text_refuted :
    ¬ (textWithVillains [] [⟨"aa".toList, []⟩] = []) := by decide

theorem firstMatchLen_nil_none (names : List (List Char)) (h : ∀ n ∈ names, n ≠ []) :
    firstMatchLen names [] = none := by
  induction names with
  | nil => rfl
  | cons m ms ih =>
    rw [firstMatchLen, if_neg]
    · exact ih (fun n hn => h n (List.mem_cons_of_mem m hn))
    · rw [ciPrefixOf_nil_false m (h m (List.mem_cons_self m ms))]
      simp

theorem lowerEq_nil_false (n : List Char) (h : n ≠ []) : lowerEq n [] = false := by
  cases n with
  | nil => exact absurd rfl h
  | cons a as => rfl

/-- C9 (amended): an empty term list yields exactly one plain span equal to
the input, for every input; matching the empty string against a nonempty
term list (with nonempty names, as villain names are) yields one plain span
whose text is empty — not an empty sequence — which still concatenates to
the empty input. -/
theorem c9_empty_laws_amended :
    (∀ text : List Char, textWithVillains text [] = [Span.plain text]) ∧
    (∀ vs : List Villain, vs ≠ [] → (∀ v ∈ vs, v.name ≠ []) →
      textWithVillains [] vs = [Span.plain []]) := by
  constructor
  · intro text
    rfl
  · intro vs hne hnames
    rw [textWithVillains, if_neg (by simpa using hne)]
    have hnames2 : ∀ n ∈ (sortByLenDesc vs).map (fun v => v.name), n ≠ [] := by
      intro n hn
      rcases List.mem_map.mp hn with ⟨v, hv, rfl⟩
      exact hnames v ((mem_sortByLenDesc v vs).mp hv)
    have hsplit : jsSplitParts ((sortByLenDesc vs).map (fun v => v.name)) [] =
        [[]] := by
      rw [jsSplitParts, firstMatchLen_nil_none _ hnames2]
      rfl
    show (jsSplitParts ((sortByLenDesc vs).map (fun v => v.name)) []).map
        (classifyPart (sortByLenDesc vs)) = [Span.plain []]
    rw [hsplit]
    have hclass : classifyPart (sortByLenDesc vs) [] = Span.plain [] := by
      rw [classifyPart]
      have : (sortByLenDesc vs).find? (fun v => lowerEq v.name []) = none := by
        refine List.find?_eq_none.mpr ?_
        intro v hv
        rw [lowerEq_nil_false v.name (hnames v ((mem_sortByLenDesc v vs).mp hv))]
        simp
      rw [this]
    rw [List.map_cons, List.map_nil, hclass]

theorem c9_empty_laws_amended_witness :
    textWithVillains "abc".toList [] = [Span.plain "abc".toList] ∧
    textWithVillains [] [⟨"aa".toList, []⟩] = [Span.plain []] :=
  ⟨c9_empty_laws_amended.1 "abc".toList,
   c9_empty_laws_amended.2 [⟨"aa".toList, []⟩] (by decide) (by decide)⟩
